import Mathlib

/-!
Verification of the Execution & Cache Consistency Engine of the
`leadersboard-sample` benchmark runner.

The development shallowly embeds the Python sources:

* `src/cache_manager.py` — `CacheManager` (per-agent result cache keyed by
  content hashes), embedded as pure state-passing functions over `CMState`.
* `src/runner.py` — `BenchmarkRunner.run_agent` (execution harness) and the
  per-agent summary fold of `run_all`, embedded over an explicit description
  of the underlying agent invocation (its event stream or raised exception,
  and its wall-clock behaviour).

Python's `json.dumps(benchmark, sort_keys=True)` (used to fingerprint task
definitions) is embedded as `dumps` over a JSON value model `J`, matching
CPython's `json` output format: separators are a comma-space and a
colon-space, `ensure_ascii` escaping, object keys sorted lexicographically
by code point.  SHA-256 itself is kept abstract: every theorem is stated
for an arbitrary digest function (`hashF` for file bytes, `hashT` for the
UTF-8 encoded canonical serialization), since none of the verified
properties depends on anything beyond SHA-256 being a fixed function
(injectivity on the relevant inputs is an explicit hypothesis where a
claim needs collision-freedom).
-/

namespace Leadersboard

/-- JSON values as parsed by Python's `json` module (restricted to the shapes
a benchmark task definition can contain; numbers are modelled as integers).
Objects carry their fields in insertion order, as Python `dict`s do. -/
inductive J where
  | null : J
  | bool (b : Bool) : J
  | num (n : Int) : J
  | str (s : List Char) : J
  | arr (elems : List J) : J
  | obj (fields : List (List Char × J)) : J

/-- A key/value pair of a JSON object. -/
abbrev KV := List Char × J

/-! ### Structural equality of JSON values (Python `==` on parsed values) -/

mutual

/-- Structural equality on JSON values, modelling Python `==` on the values
`json.loads` produces.  Used for dictionary key lookups. -/
def jeq : J → J → Bool
  | .null, .null => true
  | .bool b1, .bool b2 => b1 == b2
  | .num n1, .num n2 => n1 == n2
  | .str s1, .str s2 => s1 == s2
  | .arr l1, .arr l2 => jeqList l1 l2
  | .obj f1, .obj f2 => jeqKV f1 f2
  | _, _ => false

def jeqList : List J → List J → Bool
  | [], [] => true
  | x :: xs, y :: ys => jeq x y && jeqList xs ys
  | _, _ => false

def jeqKV : List KV → List KV → Bool
  | [], [] => true
  | (k1, v1) :: xs, (k2, v2) :: ys => k1 == k2 && jeq v1 v2 && jeqKV xs ys
  | _, _ => false

end

theorem jeq_refl_aux (fuel : Nat) :
    (∀ v : J, sizeOf v ≤ fuel → jeq v v = true) ∧
    (∀ l : List J, sizeOf l ≤ fuel → jeqList l l = true) ∧
    (∀ f : List KV, sizeOf f ≤ fuel → jeqKV f f = true) := by
  induction fuel with
  | zero =>
    refine ⟨fun v hv => ?_, fun l hl => ?_, fun f hf => ?_⟩
    · cases v <;> simp_all
    · cases l with
      | nil => simp [jeqList]
      | cons x xs => simp at hl
    · cases f with
      | nil => simp [jeqKV]
      | cons p ps => simp at hf
  | succ n ih =>
    obtain ⟨ihJ, ihL, ihK⟩ := ih
    refine ⟨fun v hv => ?_, fun l hl => ?_, fun f hf => ?_⟩
    · cases v with
      | null => rfl
      | bool b => simp [jeq]
      | num m => simp [jeq]
      | str s => simp [jeq]
      | arr l =>
        simp only [jeq]
        exact ihL l (by simp at hv; omega)
      | obj f =>
        simp only [jeq]
        exact ihK f (by simp at hv; omega)
    · cases l with
      | nil => rfl
      | cons x xs =>
        simp only [jeqList, Bool.and_eq_true]
        have hx : sizeOf x ≤ n := by simp at hl; omega
        have hxs : sizeOf xs ≤ n := by simp at hl; omega
        exact ⟨ihJ x hx, ihL xs hxs⟩
    · cases f with
      | nil => rfl
      | cons p ps =>
        obtain ⟨k, v⟩ := p
        simp only [jeqKV, Bool.and_eq_true]
        have hv : sizeOf v ≤ n := by simp at hf; omega
        have hps : sizeOf ps ≤ n := by simp at hf; omega
        exact ⟨⟨by simp, ihJ v hv⟩, ihK ps hps⟩

/-- `jeq` is reflexive. -/
theorem jeq_refl (v : J) : jeq v v = true :=
  (jeq_refl_aux (sizeOf v)).1 v (Nat.le_refl _)

/-! ### Object-key ordering and sorting (Python `sorted` on `dict` keys) -/

/-- Comparison of two object fields by key, in the lexicographic code-point
order Python uses to compare `str` values. -/
def kvLe (p q : KV) : Prop := p.1 ≤ q.1

/-- Strict version of `kvLe`. -/
def kvLt (p q : KV) : Prop := p.1 < q.1

instance : DecidableRel kvLe := fun p q => inferInstanceAs (Decidable (p.1 ≤ q.1))

instance : IsTotal KV kvLe := ⟨fun p q => le_total p.1 q.1⟩

instance : IsTrans KV kvLe := ⟨fun _ _ _ h1 h2 => le_trans h1 h2⟩

instance : IsAntisymm KV kvLt :=
  ⟨fun _ _ h1 h2 => absurd h2 (lt_asymm h1)⟩

/-- Sorting the fields of a JSON object by key (`sort_keys=True`). -/
def sortKV (l : List KV) : List KV := List.insertionSort kvLe l

theorem sortKV_perm (l : List KV) : (sortKV l).Perm l :=
  List.perm_insertionSort kvLe l

theorem sizeOf_sortKV (l : List KV) : sizeOf (sortKV l) = sizeOf l :=
  (sortKV_perm l).sizeOf_eq_sizeOf

theorem sortKV_sorted (l : List KV) : List.Sorted kvLe (sortKV l) :=
  List.sorted_insertionSort kvLe l

theorem sortKV_of_sorted {l : List KV} (h : List.Sorted kvLe l) : sortKV l = l :=
  h.insertionSort_eq

/-- Two permuted field lists with pairwise-distinct keys sort identically. -/
theorem sortKV_eq_of_perm {l1 l2 : List KV} (hp : l1.Perm l2)
    (hnd : (l1.map Prod.fst).Nodup) : sortKV l1 = sortKV l2 := by
  have hnd1 : l1.Pairwise (fun a b : KV => a.1 ≠ b.1) := by
    rw [List.Nodup, List.pairwise_map] at hnd
    exact hnd
  have hnd2 : l2.Pairwise (fun a b : KV => a.1 ≠ b.1) := hnd1.perm hp (by
    intro a b h
    exact fun hba => h hba.symm)
  have hs1 : List.Sorted kvLt (sortKV l1) := by
    have hle := sortKV_sorted l1
    have hne : (sortKV l1).Pairwise (fun a b : KV => a.1 ≠ b.1) :=
      hnd1.perm (sortKV_perm l1).symm (by intro a b h hba; exact h hba.symm)
    exact (hle.and hne).imp (fun h => lt_of_le_of_ne h.1 h.2)
  have hs2 : List.Sorted kvLt (sortKV l2) := by
    have hle := sortKV_sorted l2
    have hne : (sortKV l2).Pairwise (fun a b : KV => a.1 ≠ b.1) :=
      hnd2.perm (sortKV_perm l2).symm (by intro a b h hba; exact h hba.symm)
    exact (hle.and hne).imp (fun h => lt_of_le_of_ne h.1 h.2)
  exact List.eq_of_perm_of_sorted (((sortKV_perm l1).trans hp).trans (sortKV_perm l2).symm) hs1 hs2

/-- Mapping a function over the values of the fields commutes with key
sorting (the sort only inspects keys). -/
def mapVal (g : J → J) (l : List KV) : List KV := l.map fun p => (p.1, g p.2)

theorem orderedInsert_mapVal (g : J → J) (p : KV) (l : List KV) :
    List.orderedInsert kvLe (p.1, g p.2) (mapVal g l) =
      mapVal g (List.orderedInsert kvLe p l) := by
  induction l with
  | nil => rfl
  | cons q rest ih =>
    by_cases h : kvLe p q
    · have h' : kvLe (p.1, g p.2) (q.1, g q.2) := h
      simp [mapVal, List.orderedInsert, h, h']
    · have h' : ¬ kvLe (p.1, g p.2) (q.1, g q.2) := h
      simp only [mapVal, List.map_cons, List.orderedInsert, if_neg h', if_neg h]
      simpa [mapVal] using ih

theorem sortKV_mapVal (g : J → J) (l : List KV) :
    sortKV (mapVal g l) = mapVal g (sortKV l) := by
  induction l with
  | nil => rfl
  | cons p rest ih =>
    simp only [sortKV, mapVal, List.map_cons, List.insertionSort]
    rw [show List.insertionSort kvLe (List.map (fun p => (p.1, g p.2)) rest) =
          sortKV (mapVal g rest) from rfl, ih]
    exact orderedInsert_mapVal g p (List.insertionSort kvLe rest)

theorem mapVal_keys (g : J → J) (l : List KV) :
    (mapVal g l).map Prod.fst = l.map Prod.fst := by
  induction l with
  | nil => rfl
  | cons p rest ih => simp [mapVal] at ih ⊢

/-! ### CPython `json.dumps` string escaping (`ensure_ascii=True`) -/

/-- Lowercase hexadecimal digit. -/
def hexDig (n : Nat) : Char := if n < 10 then Char.ofNat (48 + n) else Char.ofNat (87 + n)

/-- Four-digit lowercase hexadecimal rendering, as Python formats the four
hex digits of a \\u escape. -/
def hex4 (n : Nat) : List Char :=
  [hexDig (n / 4096 % 16), hexDig (n / 256 % 16), hexDig (n / 16 % 16), hexDig (n % 16)]

/-- Escape of one character, following CPython's
`json.encoder.py_encode_basestring_ascii`: quote and backslash escaped, the
five short control escapes, printable ASCII kept literal, everything else as
`\uXXXX` (with a surrogate pair above the BMP). -/
def escChar (c : Char) : List Char :=
  if c = '"' then ['\\', '"']
  else if c = '\\' then ['\\', '\\']
  else if c = '\x08' then ['\\', 'b']
  else if c = '\x0c' then ['\\', 'f']
  else if c = '\n' then ['\\', 'n']
  else if c = '\r' then ['\\', 'r']
  else if c = '\t' then ['\\', 't']
  else if 32 ≤ c.toNat ∧ c.toNat ≤ 126 then [c]
  else if c.toNat < 65536 then '\\' :: 'u' :: hex4 c.toNat
  else
    ('\\' :: 'u' :: hex4 (55296 + (c.toNat - 65536) / 1024)) ++
      ('\\' :: 'u' :: hex4 (56320 + (c.toNat - 65536) % 1024))

/-- Escaped body of a string literal. -/
def escBody : List Char → List Char
  | [] => []
  | c :: cs => escChar c ++ escBody cs

/-- A serialized JSON string literal: quote, escaped body, quote. -/
def escStr (s : List Char) : List Char := '"' :: (escBody s ++ ['"'])

/-! ### Decimal rendering of integers (Python `repr` of `int`) -/

/-- Decimal digit character. -/
def digCh (n : Nat) : Char := Char.ofNat (48 + n)

/-- Decimal digits of a natural number, most significant first. -/
def natDigits (n : Nat) : List Char :=
  if _h : n < 10 then [digCh n] else natDigits (n / 10) ++ [digCh (n % 10)]
  termination_by n
  decreasing_by exact Nat.div_lt_self (by omega) (by omega)

/-- Python's decimal rendering of an `int`. -/
def intChars (n : Int) : List Char :=
  if n < 0 then '-' :: natDigits n.natAbs else natDigits n.toNat

/-! ### `json.dumps(·, sort_keys=True)` -/

mutual

/-- `json.dumps(value, sort_keys=True)` with CPython's default separators
(comma-space between items, colon-space after keys) and ASCII escaping. -/
def dumps : J → List Char
  | .bool b => if b then ['t', 'r', 'u', 'e'] else ['f', 'a', 'l', 's', 'e']
  | .null => ['n', 'u', 'l', 'l']
  | .num n => intChars n
  | .str s => escStr s
  | .arr es => '[' :: dumpsItems es
  | .obj fs => '\x7b' :: dumpsFields (sortKV fs)
  termination_by v => sizeOf v
  decreasing_by all_goals (simp [sizeOf_sortKV] <;> omega)

/-- Serialized items of an array, including the closing bracket. -/
def dumpsItems : List J → List Char
  | [] => [']']
  | [x] => dumps x ++ [']']
  | x :: y :: rest => dumps x ++ ',' :: ' ' :: dumpsItems (y :: rest)
  termination_by l => sizeOf l
  decreasing_by all_goals (simp <;> omega)

/-- Serialized fields of an (already sorted) object, including the closing
brace. -/
def dumpsFields : List KV → List Char
  | [] => ['\x7d']
  | [(k, v)] => escStr k ++ ':' :: ' ' :: (dumps v ++ ['\x7d'])
  | (k, v) :: q :: rest =>
      escStr k ++ ':' :: ' ' :: (dumps v ++ ',' :: ' ' :: dumpsFields (q :: rest))
  termination_by l => sizeOf l
  decreasing_by all_goals (simp <;> omega)

end

mutual

/-- Canonical form of a JSON value: every object's fields sorted by key,
recursively.  Two values have the same canonical form exactly when they are
structurally identical up to object-field insertion order. -/
def canon : J → J
  | .null => .null
  | .bool b => .bool b
  | .num n => .num n
  | .str s => .str s
  | .arr es => .arr (canonList es)
  | .obj fs => .obj (sortKV (canonKV fs))
  termination_by v => sizeOf v

def canonList : List J → List J
  | [] => []
  | x :: xs => canon x :: canonList xs
  termination_by l => sizeOf l

def canonKV : List KV → List KV
  | [] => []
  | (key, val) :: ps => (key, canon val) :: canonKV ps
  termination_by l => sizeOf l

end

theorem canonList_eq_map (l : List J) : canonList l = l.map canon := by
  induction l with
  | nil => simp [canonList]
  | cons x xs ih => simp [canonList, ih]

theorem canonKV_eq_mapVal (l : List KV) : canonKV l = mapVal canon l := by
  induction l with
  | nil => simp [canonKV, mapVal]
  | cons p rest ih =>
    obtain ⟨k, v⟩ := p
    simp [canonKV, mapVal] at ih ⊢
    simpa [mapVal] using ih

/-! ## The cache manager (`src/cache_manager.py`)

The file system is modelled as a partial map from paths (component lists) to
byte contents; an unreadable/missing file maps to `none`, which the Python
code surfaces as an `OSError`.  `CacheManager` state is the in-memory
`cache_data` dict plus the durable per-agent JSON files in `results/`.
The result payload type is an arbitrary `R` (the code treats results as
opaque dicts, probing only the truthiness of `result.get("error")` and
`result.get("correct")`, supplied here as `errT`/`corrT`). -/

/-- A file system: path components to raw byte content. -/
def FS : Type := List String → Option (List Nat)

/-- Python exceptions the cache-manager code can raise out of a call. -/
inductive PyErr where
  | keyError (key : List Char) : PyErr
  | osError (path : List String) : PyErr
deriving DecidableEq

/-- The `summary` block of an agent's cache partition. -/
structure Summary where
  total : Nat
  correct : Nat
  incorrect : Nat
  errors : Nat
deriving DecidableEq

/-- One cached task entry (`cache_manager.py` lines 124-130). -/
structure TaskEntry (R : Type) where
  task_name : J
  agent_hash : String
  benchmark_hash : String
  timestamp : String
  result : R

/-- One agent's cache partition (`_empty_agent_cache` fields).  `tasks` is an
association list in insertion order, keyed by the task id (a JSON value). -/
structure AgentCache (R : Type) where
  agent_name : String
  cache_version : String
  tasks : List (J × TaskEntry R)
  summary : Summary
  last_updated : Option String

/-- A durable per-agent file: missing, unparseable, or a parsed partition. -/
inductive DiskFile (R : Type) where
  | absent : DiskFile R
  | corrupt : DiskFile R
  | good (cache : AgentCache R) : DiskFile R

/-- `CacheManager` state: the in-memory `cache_data` dict and the durable
`results/` directory contents. -/
structure CMState (R : Type) where
  cacheData : String → Option (AgentCache R)
  disk : String → DiskFile R

/-- Association-list lookup keyed by Python equality of JSON values. -/
def alookupJ {R : Type} (key : J) : List (J × TaskEntry R) → Option (TaskEntry R)
  | [] => none
  | (k, e) :: rest => if jeq key k then some e else alookupJ key rest

/-- Python `dict` assignment `d[key] = e`: replace the value at the first
equal key, else append. -/
def dictInsert {R : Type} (key : J) (e : TaskEntry R) :
    List (J × TaskEntry R) → List (J × TaskEntry R)
  | [] => [(key, e)]
  | (k, v) :: rest =>
      if jeq key k then (k, e) :: rest else (k, v) :: dictInsert key e rest

/-- Lookup in a benchmark dict (string keys). -/
def alookupS (key : List Char) : List (List Char × J) → Option J
  | [] => none
  | (k, v) :: rest => if key = k then some v else alookupS key rest

/-- `Path.name`: the last path component. -/
def pathName (p : List String) : String := p.getLast?.getD ""

/-- The benchmark dict key `"id"`. -/
def idKey : List Char := ['i', 'd']

/-- The benchmark dict key `"name"`. -/
def nameKey : List Char := ['n', 'a', 'm', 'e']

/-- `CacheManager.CACHE_VERSION`. -/
def CACHE_VERSION : String := "2.0"

/-- `CacheManager._empty_agent_cache`. -/
def empty_agent_cache (R : Type) (agent_name : String) : AgentCache R :=
  { agent_name := agent_name
    cache_version := CACHE_VERSION
    tasks := []
    summary := { total := 0, correct := 0, incorrect := 0, errors := 0 }
    last_updated := none }

/-- `CacheManager._load_agent_cache`: reuse the in-memory partition, else
load from disk (an unparseable or missing file yields an empty partition)
and remember it in `cache_data`. -/
def load_agent_cache {R : Type} (st : CMState R) (agent_name : String) :
    AgentCache R × CMState R :=
  match st.cacheData agent_name with
  | some c => (c, st)
  | none =>
    let data : AgentCache R :=
      match st.disk agent_name with
      | .good c => c
      | .corrupt => empty_agent_cache R agent_name
      | .absent => empty_agent_cache R agent_name
    (data, { st with
              cacheData := fun n => if n = agent_name then some data else st.cacheData n })

/-- `CacheManager.compute_file_hash`: SHA-256 of the file's bytes (the
incremental 4096-byte loop hashes exactly the whole content); `none` when
the file cannot be opened (`OSError`). -/
def compute_file_hash (hashF : List Nat → String) (fs : FS) (file_path : List String) :
    Option String :=
  (fs file_path).map hashF

/-- `CacheManager._recalculate_summary`: recompute the summary from all task
entries.  `errT r` models the truthiness of `result.get("error")` and
`corrT r` that of `result.get("correct")`. -/
def recalculate_summary {R : Type} (errT corrT : R → Bool)
    (tasks : List (J × TaskEntry R)) : Summary :=
  tasks.foldl
    (fun s p =>
      let s := { s with total := s.total + 1 }
      if errT p.2.result then { s with errors := s.errors + 1 }
      else if corrT p.2.result then { s with correct := s.correct + 1 }
      else { s with incorrect := s.incorrect + 1 })
    { total := 0, correct := 0, incorrect := 0, errors := 0 }

/-- `CacheManager.get_cached_result`: return the cached result for
`benchmark["id"]` iff both recomputed hashes match the stored ones.
`hashF` is SHA-256 on file bytes, `hashT` is SHA-256 on the UTF-8 encoding
of the canonical serialization. -/
def get_cached_result {R : Type} (hashF : List Nat → String) (hashT : List Char → String)
    (fs : FS) (st : CMState R) (agent_path : List String)
    (benchmark : List (List Char × J)) : CMState R × Except PyErr (Option R) :=
  let agent_name := pathName agent_path
  match alookupS idKey benchmark with
  | none => (st, .error (.keyError idKey))
  | some task_id =>
    let lc := load_agent_cache st agent_name
    let agent_cache := lc.1
    let st1 := lc.2
    match alookupJ task_id agent_cache.tasks with
    | none => (st1, .ok none)
    | some cached_entry =>
      match compute_file_hash hashF fs (agent_path ++ ["agent.py"]) with
      | none => (st1, .error (.osError (agent_path ++ ["agent.py"])))
      | some agent_hash =>
        let benchmark_hash := hashT (dumps (.obj benchmark))
        if cached_entry.agent_hash = agent_hash ∧
            cached_entry.benchmark_hash = benchmark_hash then
          (st1, .ok (some cached_entry.result))
        else
          (st1, .ok none)

/-- `CacheManager.cache_result`: store a result under `benchmark["id"]` with
freshly computed hashes, recompute the partition summary, update
`last_updated` and persist the partition. -/
def cache_result {R : Type} (errT corrT : R → Bool)
    (hashF : List Nat → String) (hashT : List Char → String)
    (fs : FS) (st : CMState R) (agent_path : List String)
    (benchmark : List (List Char × J)) (result : R) (timestamp : String) :
    CMState R × Except PyErr Unit :=
  let agent_name := pathName agent_path
  match alookupS idKey benchmark with
  | none => (st, .error (.keyError idKey))
  | some task_id =>
    let lc := load_agent_cache st agent_name
    let agent_cache := lc.1
    let st1 := lc.2
    match compute_file_hash hashF fs (agent_path ++ ["agent.py"]) with
    | none => (st1, .error (.osError (agent_path ++ ["agent.py"])))
    | some agent_hash =>
      let benchmark_hash := hashT (dumps (.obj benchmark))
      let entry : TaskEntry R :=
        { task_name := (alookupS nameKey benchmark).getD task_id
          agent_hash := agent_hash
          benchmark_hash := benchmark_hash
          timestamp := timestamp
          result := result }
      let tasks1 := dictInsert task_id entry agent_cache.tasks
      let cache1 : AgentCache R :=
        { agent_cache with
            tasks := tasks1
            last_updated := some timestamp
            summary := recalculate_summary errT corrT tasks1 }
      ({ cacheData := fun n => if n = agent_name then some cache1 else st1.cacheData n
         disk := fun n => if n = agent_name then .good cache1 else st1.disk n },
       .ok ())

/-! ## The execution harness (`src/runner.py`, `BenchmarkRunner.run_agent`)

One invocation of an agent is described by an `AgentBehavior`: either the
`try` block raises some exception (load failure, session failure, a fault
while streaming, ...) — modelled as `Except.error` — or the event stream
runs to completion yielding a list of events.  `elapsed` is the wall time
`time.time() - start_time` measured at the `return`, and `sessionTime` the
`time.time()` reading used to format the session id. -/

/-- `usage_metadata` attached to a streamed event: the four optional token
counters `run_agent` inspects. -/
structure UsageMetadata where
  prompt_token_count : Option Nat
  tool_use_prompt_token_count : Option Nat
  candidates_token_count : Option Nat
  thoughts_token_count : Option Nat
deriving DecidableEq

/-- A `code_execution_result` carried by a content part. -/
structure CodeExecutionResult where
  output : Option String
deriving DecidableEq

/-- One part of a structured content fragment. -/
structure ContentPart where
  text : Option String
  code_execution_result : Option CodeExecutionResult
deriving DecidableEq

/-- The `content` field of a streamed event: absent, a plain string, or a
structured fragment with parts. -/
inductive EventContent where
  | absent : EventContent
  | str (s : String) : EventContent
  | parts (ps : List ContentPart) : EventContent
deriving DecidableEq

/-- One streamed event. -/
structure Event where
  usage_metadata : Option UsageMetadata
  content : EventContent
deriving DecidableEq

/-- `if count: total += count` — a falsy (absent or zero) counter is not
added. -/
def addTok (acc : Nat) (t : Option Nat) : Nat :=
  match t with
  | some n => if n = 0 then acc else acc + n
  | none => acc

/-- Token accumulation for one event's `usage_metadata` (runner.py lines
140-165): prompt and tool-use-prompt counts feed the input total,
candidates and thoughts counts feed the output total. -/
def foldUsage (pt ct : Nat) (u : UsageMetadata) : Nat × Nat :=
  (addTok (addTok pt u.prompt_token_count) u.tool_use_prompt_token_count,
   addTok (addTok ct u.candidates_token_count) u.thoughts_token_count)

/-- Texts contributed by a part's `code_execution_result` (truthy output
only). -/
def cerTexts (p : ContentPart) : List String :=
  match p.code_execution_result with
  | some cer =>
    match cer.output with
    | some o => if o = "" then [] else [o]
    | none => []
  | none => []

/-- Texts contributed by one content part: truthy `text` wins, else the
code-execution output. -/
def partTexts (p : ContentPart) : List String :=
  match p.text with
  | some t => if t = "" then cerTexts p else [t]
  | none => cerTexts p

/-- Texts contributed by one event's content (`if ... and event.content:` —
an absent or empty-string content contributes nothing). -/
def contentTexts : EventContent → List String
  | .absent => []
  | .str s => if s = "" then [] else [s]
  | .parts ps => ps.foldl (fun acc p => acc ++ partTexts p) []

/-- Consuming the whole event stream: accumulate response parts in arrival
order and the two token totals (starting from `[]`, `0`, `0`). -/
def consumeEvents (events : List Event) : List String × Nat × Nat :=
  events.foldl
    (fun acc e =>
      let (pt, ct) :=
        match e.usage_metadata with
        | some u => foldUsage acc.2.1 acc.2.2 u
        | none => (acc.2.1, acc.2.2)
      (acc.1 ++ contentTexts e.content, pt, ct))
    ([], 0, 0)

/-- Python `str.strip()` whitespace. -/
def isPySpace (c : Char) : Bool :=
  [' ', '\t', '\n', '\r', '\x0b', '\x0c'].contains c

/-- Python `str.strip()`: drop leading and trailing whitespace. -/
def pyStrip (s : String) : String :=
  String.mk (((s.data.dropWhile isPySpace).reverse.dropWhile isPySpace).reverse)

/-- The dictionary `run_agent` returns.  `none` models an absent key (the
success dict has no `error` key; the failure dict has no `stderr` or
`returncode` key) as well as an explicit `None` value. -/
structure RunResult where
  output : String
  stderr : Option String
  execution_time : ℚ
  success : Bool
  returncode : Option Int
  error : Option String
  input_tokens : Option Nat
  output_tokens : Option Nat
deriving DecidableEq

/-- The load failures enumerated by the spec, with the exception text CPython
produces for each (`str(e)` of `FileNotFoundError`, `SyntaxError`,
`AttributeError`). -/
inductive LoadError where
  | missingFile (path : String) : LoadError
  | malformed (msg : String) (line : Nat) : LoadError
  | missingRootAgent : LoadError

/-- An apostrophe character (U+0027). -/
def sq : String := String.mk ['\x27']

/-- `str(e)` for each load failure. -/
def LoadError.message : LoadError → String
  | .missingFile path => "[Errno 2] No such file or directory: " ++ sq ++ path ++ sq
  | .malformed msg line => msg ++ " (agent.py, line " ++ String.mk (natDigits line) ++ ")"
  | .missingRootAgent =>
      "module " ++ sq ++ "agent_module" ++ sq ++ " has no attribute " ++
        sq ++ "root_agent" ++ sq

/-- An exception raised inside `run_agent`'s `try` block. -/
inductive PyExn where
  | loadError (e : LoadError) : PyExn
  | other (msg : String) : PyExn

/-- `str(e)`. -/
def PyExn.toMessage : PyExn → String
  | .loadError e => e.message
  | .other msg => msg

/-- What one invocation of the underlying agent does. -/
structure AgentBehavior where
  load : Except PyExn (List Event)
  elapsed : ℚ
  sessionTime : ℚ

/-- Python `int(t)` for a non-negative or negative rational clock reading
(truncation toward zero). -/
def pyInt (t : ℚ) : Int := t.num.tdiv t.den

/-- The session identifier established for one invocation (runner.py line
113): the literal word session, the agent name and the integer part of the
clock reading, joined by underscores. -/
def session_id (agent_name : String) (t : ℚ) : String :=
  "session_" ++ agent_name ++ "_" ++ String.mk (intChars (pyInt t))

/-- `BenchmarkRunner.run_agent`: consume the stream and return the success
dictionary, or catch any exception and return the failure dictionary.  The
`timeout` parameter is accepted (default 60 in the source) — its (non-)use
is exactly what the embedding shows. -/
def run_agent (beh : AgentBehavior) (query : String) (timeout : Nat) : RunResult :=
  match beh.load with
  | .ok events =>
    let ce := consumeEvents events
    let response_parts := ce.1
    let prompt_tokens := ce.2.1
    let candidates_tokens := ce.2.2
    let response := String.join response_parts
    { output := if response = "" then "" else pyStrip response
      stderr := none
      execution_time := beh.elapsed
      success := true
      returncode := some 0
      error := none
      input_tokens := some prompt_tokens
      output_tokens := some candidates_tokens }
  | .error e =>
    { output := ""
      stderr := none
      execution_time := beh.elapsed
      success := false
      returncode := none
      error := some e.toMessage
      input_tokens := none
      output_tokens := none }

/-- The per-agent running-summary fold of `BenchmarkRunner.run_all` (lines
326-334): the stored task-result dict, of which the fold reads
`task_result.get("error")` (truthiness) and `task_result["correct"]`. -/
structure TaskResult where
  correct : Bool
  execution_time : ℚ
  agent_output : String
  expected_answer : String
  input_tokens : Option Nat
  output_tokens : Option Nat
  error : Option String
deriving DecidableEq

/-- Truthiness of `task_result.get("error")`. -/
def trErr (tr : TaskResult) : Bool :=
  match tr.error with
  | some s => s ≠ ""
  | none => false

/-- One step of the running summary (runner.py lines 327-334). -/
def update_summary (s : Summary) (tr : TaskResult) : Summary :=
  let s := { s with total := s.total + 1 }
  if trErr tr then { s with errors := s.errors + 1 }
  else if tr.correct then { s with correct := s.correct + 1 }
  else { s with incorrect := s.incorrect + 1 }

/-! ## Supporting lemmas -/

theorem alookupJ_dictInsert_self {R : Type} (key : J) (e : TaskEntry R)
    (l : List (J × TaskEntry R)) : alookupJ key (dictInsert key e l) = some e := by
  induction l with
  | nil => simp [dictInsert, alookupJ, jeq_refl]
  | cons p rest ih =>
    obtain ⟨k, v⟩ := p
    by_cases h : jeq key k
    · simp [dictInsert, alookupJ, h]
    · simp [dictInsert, alookupJ, h, ih]

theorem recalculate_summary_fold {R : Type} (errT corrT : R → Bool)
    (tasks : List (J × TaskEntry R)) (s0 : Summary) :
    tasks.foldl
      (fun s p =>
        let s := { s with total := s.total + 1 }
        if errT p.2.result then { s with errors := s.errors + 1 }
        else if corrT p.2.result then { s with correct := s.correct + 1 }
        else { s with incorrect := s.incorrect + 1 })
      s0 =
    { total := s0.total + tasks.length
      correct := s0.correct + tasks.countP (fun p => !errT p.2.result && corrT p.2.result)
      incorrect := s0.incorrect + tasks.countP (fun p => !errT p.2.result && !corrT p.2.result)
      errors := s0.errors + tasks.countP (fun p => errT p.2.result) } := by
  induction tasks generalizing s0 with
  | nil => simp
  | cons p rest ih =>
    by_cases he : errT p.2.result
    · simp [List.countP_cons, he, ih]
      omega
    · by_cases hc : corrT p.2.result
      · simp [List.countP_cons, he, hc, ih]
        omega
      · simp [List.countP_cons, he, hc, ih]
        omega

theorem update_summary_fold (trs : List TaskResult) (s0 : Summary) :
    trs.foldl update_summary s0 =
    { total := s0.total + trs.length
      correct := s0.correct + trs.countP (fun tr => !trErr tr && tr.correct)
      incorrect := s0.incorrect + trs.countP (fun tr => !trErr tr && !tr.correct)
      errors := s0.errors + trs.countP trErr } := by
  induction trs generalizing s0 with
  | nil => simp
  | cons tr rest ih =>
    by_cases he : trErr tr
    · simp [update_summary, List.countP_cons, he, ih]
      omega
    · by_cases hc : tr.correct
      · simp [update_summary, List.countP_cons, he, hc, ih]
        omega
      · simp [update_summary, List.countP_cons, he, hc, ih]
        omega

/-- If no event contributes a truthy token count, the token totals of the
fold stay at their initial value. -/
def noTok (t : Option Nat) : Prop := t = none ∨ t = some 0

/-- The event carries no (truthy) usage telemetry. -/
def reportsNoUsage (e : Event) : Prop :=
  match e.usage_metadata with
  | none => True
  | some u =>
      noTok u.prompt_token_count ∧ noTok u.tool_use_prompt_token_count ∧
        noTok u.candidates_token_count ∧ noTok u.thoughts_token_count

theorem addTok_noTok (acc : Nat) {t : Option Nat} (h : noTok t) : addTok acc t = acc := by
  rcases h with h | h <;> simp [addTok, h]

theorem consumeEvents_tokens_const (events : List Event)
    (h : ∀ e ∈ events, reportsNoUsage e) (acc : List String × Nat × Nat) :
    (events.foldl
      (fun acc e =>
        let (pt, ct) :=
          match e.usage_metadata with
          | some u => foldUsage acc.2.1 acc.2.2 u
          | none => (acc.2.1, acc.2.2)
        (acc.1 ++ contentTexts e.content, pt, ct))
      acc).2 = acc.2 := by
  induction events generalizing acc with
  | nil => rfl
  | cons e rest ih =>
    have he := h e (by simp)
    have hrest : ∀ x ∈ rest, reportsNoUsage x := fun x hx => h x (by simp [hx])
    simp only [List.foldl_cons]
    rw [ih hrest]
    unfold reportsNoUsage at he
    match hu : e.usage_metadata with
    | none => simp [hu]
    | some u =>
      rw [hu] at he
      obtain ⟨h1, h2, h3, h4⟩ := he
      simp [hu, foldUsage, addTok_noTok _ h1, addTok_noTok _ h2,
        addTok_noTok _ h3, addTok_noTok _ h4]

/-! ## Claims about the cache (`src/cache_manager.py`) -/

/-- C1: `get_cached_result` returns absent when the agent's partition has no
entry for the task id; when an entry exists it recomputes both the
agent-artifact hash and the canonical task-definition hash from current
content, and returns the stored result exactly when both equal the stored
`agent_hash` and `benchmark_hash` — absent otherwise.  No weaker comparison
decides reuse (the iff characterizes the result by exact hash equality
alone). -/
theorem c1_lookup_iff_exact_hashes {R : Type} (hashF : List Nat → String)
    (hashT : List Char → String) (fs : FS) (st : CMState R)
    (agent_path : List String) (benchmark : List (List Char × J)) (task_id : J)
    (hid : alookupS idKey benchmark = some task_id) :
    (alookupJ task_id (load_agent_cache st (pathName agent_path)).1.tasks = none →
      (get_cached_result hashF hashT fs st agent_path benchmark).2 = .ok none) ∧
    (∀ e content,
      alookupJ task_id (load_agent_cache st (pathName agent_path)).1.tasks = some e →
      fs (agent_path ++ ["agent.py"]) = some content →
      (∀ r : R,
        (get_cached_result hashF hashT fs st agent_path benchmark).2 = .ok (some r) ↔
          (e.agent_hash = hashF content ∧
            e.benchmark_hash = hashT (dumps (.obj benchmark)) ∧ r = e.result)) ∧
      (¬ (e.agent_hash = hashF content ∧
            e.benchmark_hash = hashT (dumps (.obj benchmark))) →
        (get_cached_result hashF hashT fs st agent_path benchmark).2 = .ok none)) := by
  constructor
  · intro hnone
    simp [get_cached_result, hid, hnone]
  · intro e content hsome hfs
    constructor
    · intro r
      simp only [get_cached_result, hid, hsome, compute_file_hash, hfs, Option.map_some']
      by_cases hh : e.agent_hash = hashF content ∧
          e.benchmark_hash = hashT (dumps (.obj benchmark))
      · simp only [if_pos hh]
        constructor
        · intro hr
          simp at hr
          exact ⟨hh.1, hh.2, hr.symm⟩
        · intro ⟨_, _, hr⟩
          simp [hr]
      · simp only [if_neg hh]
        constructor
        · intro hr
          simp at hr
        · intro ⟨h1, h2, _⟩
          exact absurd ⟨h1, h2⟩ hh
    · intro hh
      simp only [get_cached_result, hid, hsome, compute_file_hash, hfs, Option.map_some']
      simp [if_neg hh]

/-- C1 witness: an empty cache, a concrete benchmark with an `"id"`, and a
file system without the artifact: lookup is absent without touching a hash. -/
theorem c1_lookup_iff_exact_hashes_witness :
    (get_cached_result (R := Bool) (fun _ => "h") (fun _ => "t") (fun _ => none)
        ⟨fun _ => none, fun _ => .absent⟩ ["agents", "a"]
        [(idKey, J.str ['t', '1'])]).2 = Except.ok none :=
  (c1_lookup_iff_exact_hashes (fun _ => "h") (fun _ => "t") (fun _ => none)
    ⟨fun _ => none, fun _ => .absent⟩ ["agents", "a"]
    [(idKey, J.str ['t', '1'])] (J.str ['t', '1']) rfl).1 rfl

/-- C2: after `cache_result` completes, while neither the agent artifact nor
the task definition changes (same `fs`, same `benchmark`), a `get_cached_result`
for the same agent and task returns exactly the stored result. -/
theorem c2_store_then_lookup_roundtrip {R : Type} (errT corrT : R → Bool)
    (hashF : List Nat → String) (hashT : List Char → String) (fs : FS)
    (st : CMState R) (agent_path : List String)
    (benchmark : List (List Char × J)) (result : R) (timestamp : String)
    (hok : (cache_result errT corrT hashF hashT fs st agent_path benchmark
        result timestamp).2 = .ok ()) :
    (get_cached_result hashF hashT fs
        (cache_result errT corrT hashF hashT fs st agent_path benchmark
          result timestamp).1
        agent_path benchmark).2 = .ok (some result) := by
  cases hid : alookupS idKey benchmark with
  | none => simp [cache_result, hid] at hok
  | some task_id =>
    cases hfs : fs (agent_path ++ ["agent.py"]) with
    | none => simp [cache_result, hid, compute_file_hash, hfs] at hok
    | some bytes =>
      simp only [get_cached_result, cache_result, hid, compute_file_hash, hfs,
        Option.map_some']
      simp [load_agent_cache, alookupJ_dictInsert_self]

/-- C2 witness: concrete store followed by lookup over an unchanged file
system returns the stored result. -/
theorem c2_store_then_lookup_roundtrip_witness :
    (get_cached_result (R := Bool) (fun _ => "h") (fun _ => "t")
        (fun p => if p = ["agents", "a", "agent.py"] then some [1, 2] else none)
        (cache_result (fun _ => false) (fun r => r) (fun _ => "h") (fun _ => "t")
          (fun p => if p = ["agents", "a", "agent.py"] then some [1, 2] else none)
          ⟨fun _ => none, fun _ => .absent⟩ ["agents", "a"]
          [(idKey, J.str ['t', '1'])] true "2026-01-01").1
        ["agents", "a"] [(idKey, J.str ['t', '1'])]).2 = .ok (some true) :=
  c2_store_then_lookup_roundtrip (fun _ => false) (fun r => r) (fun _ => "h")
    (fun _ => "t")
    (fun p => if p = ["agents", "a", "agent.py"] then some [1, 2] else none)
    ⟨fun _ => none, fun _ => .absent⟩ ["agents", "a"]
    [(idKey, J.str ['t', '1'])] true "2026-01-01" rfl

theorem countP_three_split {α : Type} (pe pc : α → Bool) (l : List α) :
    l.countP pe + l.countP (fun a => !pe a && pc a) +
      l.countP (fun a => !pe a && !pc a) = l.length := by
  induction l with
  | nil => rfl
  | cons a rest ih =>
    by_cases he : pe a
    · simp [List.countP_cons, he]
      omega
    · by_cases hc : pc a
      · simp [List.countP_cons, he, hc]
        omega
      · simp [List.countP_cons, he, hc]
        omega

/-- C3: the recomputed partition summary counts errors (truthy `error`),
correct (error-free with truthy `correct`) and incorrect (the remainder),
the three buckets sum to `total`, after every store the partition's summary
is the recomputation over its entries, and the orchestrator's running
summary classifies folded results by the same rule (an error counts as an
error regardless of verdict). -/
theorem c3_summary_consistency {R : Type} (errT corrT : R → Bool)
    (hashF : List Nat → String) (hashT : List Char → String) (fs : FS)
    (st : CMState R) (agent_path : List String)
    (benchmark : List (List Char × J)) (result : R) (timestamp : String)
    (hok : (cache_result errT corrT hashF hashT fs st agent_path benchmark
        result timestamp).2 = .ok ()) :
    (∀ tasks : List (J × TaskEntry R),
      (recalculate_summary errT corrT tasks).total = tasks.length ∧
      (recalculate_summary errT corrT tasks).errors =
        tasks.countP (fun p => errT p.2.result) ∧
      (recalculate_summary errT corrT tasks).correct =
        tasks.countP (fun p => !errT p.2.result && corrT p.2.result) ∧
      (recalculate_summary errT corrT tasks).incorrect =
        tasks.countP (fun p => !errT p.2.result && !corrT p.2.result) ∧
      (recalculate_summary errT corrT tasks).errors +
        (recalculate_summary errT corrT tasks).correct +
        (recalculate_summary errT corrT tasks).incorrect =
        (recalculate_summary errT corrT tasks).total) ∧
    (∃ c : AgentCache R,
      (cache_result errT corrT hashF hashT fs st agent_path benchmark
          result timestamp).1.cacheData (pathName agent_path) = some c ∧
      c.summary = recalculate_summary errT corrT c.tasks) ∧
    (∀ trs : List TaskResult,
      (trs.foldl update_summary ⟨0, 0, 0, 0⟩).total = trs.length ∧
      (trs.foldl update_summary ⟨0, 0, 0, 0⟩).errors = trs.countP trErr ∧
      (trs.foldl update_summary ⟨0, 0, 0, 0⟩).correct =
        trs.countP (fun tr => !trErr tr && tr.correct) ∧
      (trs.foldl update_summary ⟨0, 0, 0, 0⟩).incorrect =
        trs.countP (fun tr => !trErr tr && !tr.correct) ∧
      (trs.foldl update_summary ⟨0, 0, 0, 0⟩).errors +
        (trs.foldl update_summary ⟨0, 0, 0, 0⟩).correct +
        (trs.foldl update_summary ⟨0, 0, 0, 0⟩).incorrect =
        (trs.foldl update_summary ⟨0, 0, 0, 0⟩).total) := by
  refine ⟨fun tasks => ?_, ?_, fun trs => ?_⟩
  · rw [recalculate_summary, recalculate_summary_fold]
    refine ⟨by simp, by simp, by simp, by simp, ?_⟩
    simp only [Nat.zero_add]
    have := countP_three_split (fun p : J × TaskEntry R => errT p.2.result)
      (fun p => corrT p.2.result) tasks
    simp only [Bool.not_eq_true] at this ⊢
    omega
  · cases hid : alookupS idKey benchmark with
    | none => simp [cache_result, hid] at hok
    | some task_id =>
      cases hfs : fs (agent_path ++ ["agent.py"]) with
      | none => simp [cache_result, hid, compute_file_hash, hfs] at hok
      | some bytes =>
        simp only [cache_result, hid, compute_file_hash, hfs, Option.map_some']
        simp only [eq_self_iff_true, if_true]
        exact ⟨_, rfl, rfl⟩
  · rw [update_summary_fold]
    refine ⟨by simp, by simp, by simp, by simp, ?_⟩
    simp only [Nat.zero_add]
    have := countP_three_split trErr (fun tr => tr.correct) trs
    simp only [Bool.not_eq_true] at this ⊢
    omega

/-- C3 witness: a concrete successful store: the stored partition's summary
is the recomputation over its entries, and the count characterizations hold
for a concrete entry list and result list. -/
theorem c3_summary_consistency_witness :
    (∃ c : AgentCache Bool,
      (cache_result (R := Bool) (fun _ => false) (fun r => r) (fun _ => "h")
          (fun _ => "t")
          (fun p => if p = ["agents", "a", "agent.py"] then some [1, 2] else none)
          ⟨fun _ => none, fun _ => .absent⟩ ["agents", "a"]
          [(idKey, J.str ['t', '1'])] true "2026-01-01").1.cacheData
        (pathName ["agents", "a"]) = some c ∧
      c.summary = recalculate_summary (fun _ => false) (fun r => r) c.tasks) :=
  (c3_summary_consistency (fun _ => false) (fun r => r) (fun _ => "h")
    (fun _ => "t")
    (fun p => if p = ["agents", "a", "agent.py"] then some [1, 2] else none)
    ⟨fun _ => none, fun _ => .absent⟩ ["agents", "a"]
    [(idKey, J.str ['t', '1'])] true "2026-01-01" rfl).2.1

/-! ## Claims about the execution harness (`src/runner.py`) -/

/-- C4: the claim requires a distinct timeout failure whenever the whole
invocation exceeds the budget; the code never enforces `timeout`.  The
result of `run_agent` is entirely independent of the timeout argument, and
an invocation taking 120 seconds against a 60-second budget still returns
`success=true` with no error — the timeout taxonomy entry is unreachable. -/
theorem c4_timeout_never_enforced :
    (∀ (beh : AgentBehavior) (q : String) (t1 t2 : Nat),
      run_agent beh q t1 = run_agent beh q t2) ∧
    (run_agent ⟨.ok [⟨none, .str "42"⟩], 120, 100⟩ "q" 60).success = true ∧
    (run_agent ⟨.ok [⟨none, .str "42"⟩], 120, 100⟩ "q" 60).error = none ∧
    (run_agent ⟨.ok [⟨none, .str "42"⟩], 120, 100⟩ "q" 60).execution_time = 120 ∧
    (60 : ℚ) < 120 := by
  refine ⟨fun beh q t1 t2 => rfl, rfl, rfl, rfl, by norm_num⟩

/-- C6 counterexample: an invocation whose single event carries no usage
metadata at all still returns numeric token counts (`0`), not absent ones. -/
theorem c6_counterexample_tokens_zero_not_absent :
    (run_agent ⟨.ok [⟨none, .str "Paris"⟩], 1, 0⟩ "q" 60).input_tokens = some 0 ∧
    (run_agent ⟨.ok [⟨none, .str "Paris"⟩], 1, 0⟩ "q" 60).output_tokens = some 0 ∧
    (run_agent ⟨.ok [⟨none, .str "Paris"⟩], 1, 0⟩ "q" 60).input_tokens ≠ none ∧
    (run_agent ⟨.ok [⟨none, .str "Paris"⟩], 1, 0⟩ "q" 60).output_tokens ≠ none := by
  refine ⟨rfl, rfl, by simp [run_agent, consumeEvents], by simp [run_agent, consumeEvents]⟩

/-- C6 (amended): when no event reports a truthy token count, a successful
invocation returns token counts present with value `0`; the counts are
absent (`None`) exactly on the failure path. -/
theorem c6_tokens_zero_on_success_none_on_failure :
    (∀ (events : List Event) (q : String) (t : Nat) (el st : ℚ),
      (∀ e ∈ events, reportsNoUsage e) →
      (run_agent ⟨.ok events, el, st⟩ q t).input_tokens = some 0 ∧
      (run_agent ⟨.ok events, el, st⟩ q t).output_tokens = some 0) ∧
    (∀ (ex : PyExn) (q : String) (t : Nat) (el st : ℚ),
      (run_agent ⟨.error ex, el, st⟩ q t).input_tokens = none ∧
      (run_agent ⟨.error ex, el, st⟩ q t).output_tokens = none) := by
  constructor
  · intro events q t el st h
    have hz : (consumeEvents events).2 = (0, 0) :=
      consumeEvents_tokens_const events h ([], 0, 0)
    constructor
    · show some (consumeEvents events).2.1 = some 0
      rw [hz]
    · show some (consumeEvents events).2.2 = some 0
      rw [hz]
  · intro ex q t el st
    exact ⟨rfl, rfl⟩

/-- C6 witness: a concrete usage-free stream yields token counts `some 0`,
and a concrete failure yields absent counts. -/
theorem c6_tokens_zero_on_success_none_on_failure_witness :
    ((run_agent ⟨.ok [⟨none, .str "Paris"⟩], 2, 0⟩ "q" 30).input_tokens = some 0 ∧
      (run_agent ⟨.ok [⟨none, .str "Paris"⟩], 2, 0⟩ "q" 30).output_tokens = some 0) ∧
    ((run_agent ⟨.error (.other "boom"), 2, 0⟩ "q" 30).input_tokens = none ∧
      (run_agent ⟨.error (.other "boom"), 2, 0⟩ "q" 30).output_tokens = none) :=
  ⟨c6_tokens_zero_on_success_none_on_failure.1 [⟨none, .str "Paris"⟩] "q" 30 2 0
      (by intro e he; simp at he; subst he; trivial),
    c6_tokens_zero_on_success_none_on_failure.2 (.other "boom") "q" 30 2 0⟩

/-- C7: the claim requires distinct session identifiers for distinct
invocations of the same agent close in time; the code derives the id from
`int(time.time())`, so two invocations of one agent within the same wall
clock second produce the identical session id. -/
theorem c7_session_id_collides_within_second :
    session_id "gemini_2_5_flash" ((501 : ℚ)/5) =
      session_id "gemini_2_5_flash" ((504 : ℚ)/5) ∧
    ((501 : ℚ)/5) ≠ ((504 : ℚ)/5) ∧
    (∀ agent_name : String,
      session_id agent_name ((501 : ℚ)/5) = session_id agent_name ((504 : ℚ)/5)) := by
  have h : pyInt ((501 : ℚ)/5) = pyInt ((504 : ℚ)/5) := by
    norm_num [pyInt, Int.tdiv]
  exact ⟨by rw [session_id, session_id, h], by norm_num,
    fun agent_name => by rw [session_id, session_id, h]⟩

theorem data_append_ne_nil_left {s t : String} (h : s.data ≠ []) : s ++ t ≠ "" := by
  intro he
  apply h
  have hd := congrArg String.data he
  rw [String.data_append] at hd
  exact (List.append_eq_nil.mp hd).1

/-- C8: an agent whose artifact cannot be loaded (missing file, malformed
implementation, or missing `root_agent`) yields a well-formed failed result:
`success=false`, empty output, non-empty error text — the exception is
caught, never propagated. -/
theorem c8_load_failure_wellformed (le : LoadError) (q : String) (t : Nat)
    (el st : ℚ) :
    run_agent ⟨.error (.loadError le), el, st⟩ q t =
      { output := ""
        stderr := none
        execution_time := el
        success := false
        returncode := none
        error := some le.message
        input_tokens := none
        output_tokens := none } ∧
    le.message ≠ "" := by
  refine ⟨rfl, ?_⟩
  cases le with
  | missingFile path =>
    show "[Errno 2] No such file or directory: " ++ sq ++ path ++ sq ≠ ""
    intro he
    have hd := congrArg String.data he
    simp [String.data_append] at hd
  | malformed msg line =>
    show msg ++ " (agent.py, line " ++ String.mk (natDigits line) ++ ")" ≠ ""
    intro he
    have hd := congrArg String.data he
    simp [String.data_append] at hd
  | missingRootAgent =>
    intro he
    have hd := congrArg String.data he
    simp [LoadError.message, String.data_append] at hd

/-- C9: both `get_cached_result` and `cache_result` hash only
`<agent dir>/agent.py`; two file systems agreeing on that single file give
identical outcomes, so modifying any other file leaves cache validity
unchanged. -/
theorem c9_fingerprint_only_agent_py {R : Type} (errT corrT : R → Bool)
    (hashF : List Nat → String) (hashT : List Char → String) (fs fs2 : FS)
    (st : CMState R) (agent_path : List String)
    (benchmark : List (List Char × J)) (result : R) (timestamp : String)
    (hagree : fs2 (agent_path ++ ["agent.py"]) = fs (agent_path ++ ["agent.py"])) :
    get_cached_result hashF hashT fs st agent_path benchmark =
      get_cached_result hashF hashT fs2 st agent_path benchmark ∧
    cache_result errT corrT hashF hashT fs st agent_path benchmark result
        timestamp =
      cache_result errT corrT hashF hashT fs2 st agent_path benchmark result
        timestamp := by
  constructor
  · simp only [get_cached_result, compute_file_hash, hagree]
  · simp only [cache_result, compute_file_hash, hagree]

/-- C9 witness: concrete file systems differing in every file except the
agent artifact give the same lookup and store outcomes. -/
theorem c9_fingerprint_only_agent_py_witness :
    get_cached_result (R := Bool) (fun _ => "h") (fun _ => "t")
        (fun p => if p = ["agents", "a", "agent.py"] then some [1] else none)
        ⟨fun _ => none, fun _ => .absent⟩ ["agents", "a"]
        [(idKey, J.str ['t', '1'])] =
      get_cached_result (fun _ => "h") (fun _ => "t")
        (fun p => if p = ["agents", "a", "agent.py"] then some [1] else some [9])
        ⟨fun _ => none, fun _ => .absent⟩ ["agents", "a"]
        [(idKey, J.str ['t', '1'])] :=
  (c9_fingerprint_only_agent_py (fun _ => false) (fun r => r) (fun _ => "h")
    (fun _ => "t")
    (fun p => if p = ["agents", "a", "agent.py"] then some [1] else none)
    (fun p => if p = ["agents", "a", "agent.py"] then some [1] else some [9])
    ⟨fun _ => none, fun _ => .absent⟩ ["agents", "a"]
    [(idKey, J.str ['t', '1'])] true "2026-01-01" rfl).1

/-- C10: `get_cached_result` performs artifact I/O only when the partition
already holds an entry for the task id: with no entry it returns absent for
every file system (even one where `agent.py` is unreadable); with an entry
and an unreadable artifact it raises `OSError` instead of returning absent. -/
theorem c10_lookup_artifact_io {R : Type} (hashF : List Nat → String)
    (hashT : List Char → String) (st : CMState R) (agent_path : List String)
    (benchmark : List (List Char × J)) (task_id : J)
    (hid : alookupS idKey benchmark = some task_id) :
    (alookupJ task_id (load_agent_cache st (pathName agent_path)).1.tasks = none →
      ∀ fs : FS, get_cached_result hashF hashT fs st agent_path benchmark =
        ((load_agent_cache st (pathName agent_path)).2, .ok none)) ∧
    (∀ e : TaskEntry R,
      alookupJ task_id (load_agent_cache st (pathName agent_path)).1.tasks = some e →
      ∀ fs : FS, fs (agent_path ++ ["agent.py"]) = none →
      (get_cached_result hashF hashT fs st agent_path benchmark).2 =
        .error (.osError (agent_path ++ ["agent.py"]))) := by
  constructor
  · intro hnone fs
    simp [get_cached_result, hid, hnone]
  · intro e hsome fs hfs
    simp [get_cached_result, hid, hsome, compute_file_hash, hfs]

/-- C10 witness: with no stored entry, lookup succeeds with absent even
though `agent.py` is missing from the file system. -/
theorem c10_lookup_artifact_io_witness :
    get_cached_result (R := Bool) (fun _ => "h") (fun _ => "t") (fun _ => none)
        ⟨fun _ => none, fun _ => .absent⟩ ["agents", "a"]
        [(idKey, J.str ['t', '1'])] =
      ((load_agent_cache (R := Bool) ⟨fun _ => none, fun _ => .absent⟩
          (pathName ["agents", "a"])).2, .ok none) :=
  (c10_lookup_artifact_io (fun _ => "h") (fun _ => "t")
    ⟨fun _ => none, fun _ => .absent⟩ ["agents", "a"]
    [(idKey, J.str ['t', '1'])] (J.str ['t', '1']) rfl).1 rfl (fun _ => none)

/-! ## Injectivity of the canonical serialization (claim C5)

The serialization is shown prefix-deterministic: from `dumps v1 ++ r1 =
dumps v2 ++ r2` (with rests not starting in a digit) follows `canon v1 =
canon v2` and `r1 = r2`.  The string-literal part is handled by a decoding
function `decodeEsc` that inverts `escChar`. -/

/-- "The rest does not start with a decimal digit" (needed because a decimal
numeral followed by more digits would be ambiguous). -/
def ndH : List Char → Prop
  | [] => True
  | c :: _ => ¬ (48 ≤ c.toNat ∧ c.toNat ≤ 57)

/-- Value of one lowercase hexadecimal digit character. -/
def hv (c : Char) : Nat := if 87 ≤ c.toNat then c.toNat - 87 else c.toNat - 48

theorem hexDig_hv : ∀ m < 16, hv (hexDig m) = m := by decide

/-- Value of a four-character hexadecimal group. -/
def hexVal4 (a b c d : Char) : Nat := 4096 * hv a + 256 * hv b + 16 * hv c + hv d

theorem hexVal4_hex4 (n : Nat) (hn : n < 65536) :
    hexVal4 (hexDig (n / 4096 % 16)) (hexDig (n / 256 % 16))
      (hexDig (n / 16 % 16)) (hexDig (n % 16)) = n := by
  unfold hexVal4
  rw [hexDig_hv _ (Nat.mod_lt _ (by omega)), hexDig_hv _ (Nat.mod_lt _ (by omega)),
    hexDig_hv _ (Nat.mod_lt _ (by omega)), hexDig_hv _ (Nat.mod_lt _ (by omega))]
  omega

/-- Decoder for a single escaped character, inverting `escChar`: returns the
decoded code point and the remaining input. -/
def decodeEsc : List Char → Option (Nat × List Char)
  | [] => none
  | c :: rest =>
    if c = '\\' then
      match rest with
      | [] => none
      | e :: rest2 =>
        if e = '"' then some (34, rest2)
        else if e = '\\' then some (92, rest2)
        else if e = 'b' then some (8, rest2)
        else if e = 'f' then some (12, rest2)
        else if e = 'n' then some (10, rest2)
        else if e = 'r' then some (13, rest2)
        else if e = 't' then some (9, rest2)
        else if e = 'u' then
          match rest2 with
          | a :: b :: c2 :: d :: rest3 =>
            if 55296 ≤ hexVal4 a b c2 d ∧ hexVal4 a b c2 d ≤ 56319 then
              match rest3 with
              | e2 :: u2 :: a2 :: b2 :: c3 :: d2 :: rest4 =>
                if e2 = '\\' ∧ u2 = 'u' then
                  some (65536 + (hexVal4 a b c2 d - 55296) * 1024 +
                    (hexVal4 a2 b2 c3 d2 - 56320), rest4)
                else none
              | _ => none
            else some (hexVal4 a b c2 d, rest3)
          | _ => none
        else none
    else if c = '"' then none
    else some (c.toNat, rest)

theorem char_valid_toNat (c : Char) :
    c.toNat < 55296 ∨ (57343 < c.toNat ∧ c.toNat < 1114112) := c.valid

theorem decodeEsc_escChar (c : Char) (t : List Char) :
    decodeEsc (escChar c ++ t) = some (c.toNat, t) := by
  have hval := char_valid_toNat c
  rw [escChar]
  split_ifs with h1 h2 h3 h4 h5 h6 h7 h8 h9
  · subst h1; simp [decodeEsc]
  · subst h2; simp [decodeEsc]
  · subst h3; simp [decodeEsc]
  · subst h4; simp [decodeEsc]
  · subst h5; simp [decodeEsc]
  · subst h6; simp [decodeEsc]
  · subst h7; simp [decodeEsc]
  · -- printable ASCII kept literal
    have hbs : c ≠ '\\' := h2
    have hq : c ≠ '"' := h1
    simp [decodeEsc, hbs, hq]
  · -- basic-plane escape
    have hround := hexVal4_hex4 c.toNat h9
    have hns : ¬ (55296 ≤ c.toNat ∧ c.toNat ≤ 56319) := by
      rcases hval with h | h <;> omega
    simp only [hex4, List.cons_append, List.nil_append]
    simp [decodeEsc, hround, hns]
  · -- astral plane: surrogate pair
    have hbig : 65536 ≤ c.toNat := by omega
    have hlt : c.toNat < 1114112 := by
      rcases hval with h | h <;> omega
    have hmod : (c.toNat - 65536) % 1024 < 1024 :=
      Nat.mod_lt _ (by omega)
    have hdiv : (c.toNat - 65536) / 1024 ≤ 1023 := by
      have : c.toNat - 65536 < 1048576 := by omega
      omega
    have hhi := hexVal4_hex4 (55296 + (c.toNat - 65536) / 1024) (by omega)
    have hlo := hexVal4_hex4 (56320 + (c.toNat - 65536) % 1024) (by omega)
    have hs : 55296 ≤ 55296 + (c.toNat - 65536) / 1024 ∧
        55296 + (c.toNat - 65536) / 1024 ≤ 56319 := by omega
    simp only [hex4, List.cons_append, List.nil_append, List.append_assoc]
    simp [decodeEsc, hhi, hlo, hs]
    omega

theorem char_toNat_inj {c d : Char} (h : c.toNat = d.toNat) : c = d :=
  Char.eq_of_val_eq (UInt32.toNat.inj h)

theorem escChar_cancel {c1 c2 : Char} {t1 t2 : List Char}
    (h : escChar c1 ++ t1 = escChar c2 ++ t2) : c1 = c2 ∧ t1 = t2 := by
  have h1 := decodeEsc_escChar c1 t1
  have h2 := decodeEsc_escChar c2 t2
  rw [h, h2] at h1
  injection h1 with h1
  injection h1 with hn ht
  exact ⟨(char_toNat_inj hn).symm, ht.symm⟩

theorem escChar_ne_quote_cons (c : Char) (t r : List Char) :
    escChar c ++ t ≠ '"' :: r := by
  intro h
  have h1 := decodeEsc_escChar c t
  rw [h] at h1
  simp [decodeEsc] at h1

theorem escBody_cancel : ∀ (s1 s2 r1 r2 : List Char),
    escBody s1 ++ '"' :: r1 = escBody s2 ++ '"' :: r2 → s1 = s2 ∧ r1 = r2 := by
  intro s1
  induction s1 with
  | nil =>
    intro s2 r1 r2 h
    cases s2 with
    | nil =>
      simp [escBody] at h
      exact ⟨rfl, h⟩
    | cons c cs =>
      simp only [escBody, List.nil_append, List.append_assoc, List.cons_append] at h
      exact absurd h.symm (escChar_ne_quote_cons c (escBody cs ++ '"' :: r2) r1)
  | cons c cs ih =>
    intro s2 r1 r2 h
    cases s2 with
    | nil =>
      simp only [escBody, List.nil_append, List.append_assoc, List.cons_append] at h
      exact absurd h (escChar_ne_quote_cons c (escBody cs ++ '"' :: r1) r2)
    | cons c2 cs2 =>
      simp only [escBody, List.append_assoc] at h
      obtain ⟨hc, ht⟩ := escChar_cancel h
      obtain ⟨hcs, hr⟩ := ih cs2 r1 r2 ht
      exact ⟨by rw [hc, hcs], hr⟩

/-! ### Cancellation for decimal numerals -/

theorem digCh_toNat : ∀ m < 10, (digCh m).toNat = 48 + m := by decide

theorem natDigits_all_digits (n : Nat) :
    ∀ c ∈ natDigits n, 48 ≤ c.toNat ∧ c.toNat ≤ 57 := by
  induction n using Nat.strong_induction_on with
  | _ n ih =>
    by_cases h : n < 10
    · rw [natDigits, dif_pos h]
      intro c hc
      simp at hc
      subst hc
      rw [digCh_toNat n h]
      omega
    · rw [natDigits, dif_neg h]
      intro c hc
      rw [List.mem_append] at hc
      rcases hc with hc | hc
      · exact ih (n / 10) (Nat.div_lt_self (by omega) (by omega)) c hc
      · simp at hc
        subst hc
        rw [digCh_toNat _ (Nat.mod_lt _ (by omega))]
        have := Nat.mod_lt n (show 0 < 10 by omega)
        omega

theorem natDigits_ne_nil (n : Nat) : natDigits n ≠ [] := by
  by_cases h : n < 10
  · rw [natDigits, dif_pos h]
    simp
  · rw [natDigits, dif_neg h]
    simp

/-- Decimal value of a digit string. -/
def val10 (l : List Char) : Nat := l.foldl (fun a c => 10 * a + (c.toNat - 48)) 0

theorem val10_natDigits (n : Nat) : val10 (natDigits n) = n := by
  induction n using Nat.strong_induction_on with
  | _ n ih =>
    by_cases h : n < 10
    · rw [natDigits, dif_pos h]
      simp [val10, digCh_toNat n h]
    · rw [natDigits, dif_neg h]
      rw [val10, List.foldl_append]
      rw [show List.foldl (fun a c => 10 * a + (c.toNat - 48)) 0 (natDigits (n / 10)) =
        val10 (natDigits (n / 10)) from rfl]
      rw [ih (n / 10) (Nat.div_lt_self (by omega) (by omega))]
      simp [digCh_toNat _ (Nat.mod_lt _ (show 0 < 10 by omega))]
      omega

theorem natDigits_inj {a b : Nat} (h : natDigits a = natDigits b) : a = b := by
  have := congrArg val10 h
  rwa [val10_natDigits, val10_natDigits] at this

theorem digits_cancel : ∀ (d1 d2 r1 r2 : List Char),
    (∀ c ∈ d1, 48 ≤ c.toNat ∧ c.toNat ≤ 57) →
    (∀ c ∈ d2, 48 ≤ c.toNat ∧ c.toNat ≤ 57) →
    ndH r1 → ndH r2 → d1 ++ r1 = d2 ++ r2 → d1 = d2 ∧ r1 = r2 := by
  intro d1
  induction d1 with
  | nil =>
    intro d2 r1 r2 _ h2 n1 _ h
    cases d2 with
    | nil => exact ⟨rfl, h⟩
    | cons c cs =>
      simp only [List.nil_append, List.cons_append] at h
      rw [h] at n1
      exact absurd (h2 c (by simp)) n1
  | cons c cs ih =>
    intro d2 r1 r2 h1 h2 n1 n2 h
    cases d2 with
    | nil =>
      simp only [List.nil_append, List.cons_append] at h
      rw [← h] at n2
      exact absurd (h1 c (by simp)) n2
    | cons c2 cs2 =>
      simp only [List.cons_append] at h
      injection h with hc ht
      obtain ⟨hd, hr⟩ := ih cs2 r1 r2 (fun x hx => h1 x (by simp [hx]))
        (fun x hx => h2 x (by simp [hx])) n1 n2 ht
      exact ⟨by rw [hc, hd], hr⟩

theorem intChars_cancel {n1 n2 : Int} {r1 r2 : List Char}
    (h : intChars n1 ++ r1 = intChars n2 ++ r2) (hn1 : ndH r1) (hn2 : ndH r2) :
    n1 = n2 ∧ r1 = r2 := by
  by_cases hs1 : n1 < 0
  · by_cases hs2 : n2 < 0
    · rw [intChars, if_pos hs1, intChars, if_pos hs2] at h
      simp only [List.cons_append] at h
      injection h with _ ht
      obtain ⟨hd, hr⟩ := digits_cancel _ _ _ _ (natDigits_all_digits _)
        (natDigits_all_digits _) hn1 hn2 ht
      have := natDigits_inj hd
      exact ⟨by omega, hr⟩
    · rw [intChars, if_pos hs1, intChars, if_neg hs2] at h
      obtain ⟨d, ds, hd⟩ : ∃ d ds, natDigits n2.toNat = d :: ds := by
        cases hnd : natDigits n2.toNat with
        | nil => exact absurd hnd (natDigits_ne_nil _)
        | cons d ds => exact ⟨d, ds, rfl⟩
      rw [hd] at h
      simp only [List.cons_append] at h
      injection h with hc _
      have hdig := natDigits_all_digits n2.toNat d (by rw [hd]; simp)
      rw [← hc] at hdig
      exact absurd hdig (by decide)
  · by_cases hs2 : n2 < 0
    · rw [intChars, if_neg hs1, intChars, if_pos hs2] at h
      obtain ⟨d, ds, hd⟩ : ∃ d ds, natDigits n1.toNat = d :: ds := by
        cases hnd : natDigits n1.toNat with
        | nil => exact absurd hnd (natDigits_ne_nil _)
        | cons d ds => exact ⟨d, ds, rfl⟩
      rw [hd] at h
      simp only [List.cons_append] at h
      injection h with hc _
      have hdig := natDigits_all_digits n1.toNat d (by rw [hd]; simp)
      rw [hc] at hdig
      exact absurd hdig (by decide)
    · rw [intChars, if_neg hs1, intChars, if_neg hs2] at h
      obtain ⟨hd, hr⟩ := digits_cancel _ _ _ _ (natDigits_all_digits _)
        (natDigits_all_digits _) hn1 hn2 h
      have := natDigits_inj hd
      constructor
      · omega
      · exact hr

/-! ### First-character dispatch: the serialized forms of distinct
constructors are distinguished by their first character. -/

/-- Constructor tag of a JSON value. -/
def kindIdx : J → Nat
  | .null => 0
  | .bool _ => 1
  | .num _ => 2
  | .str _ => 3
  | .arr _ => 4
  | .obj _ => 5

/-- Classification of a first character of a serialized value. -/
def headCls (c : Char) : Nat :=
  if c = 'n' then 0
  else if c = 't' ∨ c = 'f' then 1
  else if (48 ≤ c.toNat ∧ c.toNat ≤ 57) ∨ c = '-' then 2
  else if c = '"' then 3
  else if c = '[' then 4
  else if c = '\x7b' then 5
  else 6

theorem kindIdx_le_five (v : J) : kindIdx v ≤ 5 := by
  cases v <;> simp [kindIdx]

theorem headCls_digit {c : Char} (h1 : 48 ≤ c.toNat) (h2 : c.toNat ≤ 57) :
    headCls c = 2 := by
  have hn : c ≠ 'n' := fun he => by subst he; exact absurd h2 (by decide)
  have ht : c ≠ 't' := fun he => by subst he; exact absurd h2 (by decide)
  have hf : c ≠ 'f' := fun he => by subst he; exact absurd h2 (by decide)
  rw [headCls, if_neg hn, if_neg (by simp [ht, hf]), if_pos (Or.inl ⟨h1, h2⟩)]

theorem dumps_head_cls (v : J) (r : List Char) :
    ∃ c cs, dumps v ++ r = c :: cs ∧ headCls c = kindIdx v := by
  cases v with
  | null => exact ⟨'n', 'u' :: 'l' :: 'l' :: r, by simp [dumps], by decide⟩
  | bool b =>
    cases b with
    | true => exact ⟨'t', 'r' :: 'u' :: 'e' :: r, by simp [dumps], by decide⟩
    | false => exact ⟨'f', 'a' :: 'l' :: 's' :: 'e' :: r, by simp [dumps], by decide⟩
  | num n =>
    by_cases h : n < 0
    · refine ⟨'-', natDigits n.natAbs ++ r, ?_, by simp only [kindIdx]; decide⟩
      simp [dumps, intChars, h]
    · obtain ⟨d, ds, hd⟩ : ∃ d ds, natDigits n.toNat = d :: ds := by
        cases hnd : natDigits n.toNat with
        | nil => exact absurd hnd (natDigits_ne_nil _)
        | cons d ds => exact ⟨d, ds, rfl⟩
      have hdig := natDigits_all_digits n.toNat d (by rw [hd]; simp)
      refine ⟨d, ds ++ r, ?_, ?_⟩
      · simp [dumps, intChars, h, hd]
      · rw [headCls_digit hdig.1 hdig.2]
        rfl
  | str s =>
    exact ⟨'"', escBody s ++ '"' :: r, by simp [dumps, escStr],
      by simp only [kindIdx]; decide⟩
  | arr es =>
    exact ⟨'[', dumpsItems es ++ r, by simp [dumps], by simp only [kindIdx]; decide⟩
  | obj fs =>
    exact ⟨'\x7b', dumpsFields (sortKV fs) ++ r, by simp [dumps],
      by simp only [kindIdx]; decide⟩

/-- A serialized value never starts with a closing bracket or brace. -/
theorem dumps_append_ne_close (v : J) (t r : List Char) {c : Char}
    (hc : headCls c = 6) : dumps v ++ t ≠ c :: r := by
  intro h
  obtain ⟨c1, cs1, he, hcls⟩ := dumps_head_cls v t
  rw [he] at h
  injection h with h1 _
  rw [h1] at hcls
  rw [hc] at hcls
  have := kindIdx_le_five v
  omega

theorem escStr_append (k X : List Char) :
    escStr k ++ X = '"' :: (escBody k ++ '"' :: X) := by
  simp [escStr]

theorem canonKV_sortKV_comm (f : List KV) :
    sortKV (canonKV f) = canonKV (sortKV f) := by
  rw [canonKV_eq_mapVal, canonKV_eq_mapVal, sortKV_mapVal]

theorem ndH_cons_of {c : Char} (h : ¬ (48 ≤ c.toNat ∧ c.toNat ≤ 57))
    (r : List Char) : ndH (c :: r) := h

/-- Prefix determinism of the serialization: equal serialized prefixes (with
rests that do not begin with a digit) force equal canonical forms and equal
rests. -/
theorem det_aux : ∀ fuel : Nat,
    (∀ v1 : J, sizeOf v1 ≤ fuel → ∀ (v2 : J) (r1 r2 : List Char),
      dumps v1 ++ r1 = dumps v2 ++ r2 → ndH r1 → ndH r2 →
      canon v1 = canon v2 ∧ r1 = r2) ∧
    (∀ l1 : List J, sizeOf l1 ≤ fuel → ∀ (l2 : List J) (r1 r2 : List Char),
      dumpsItems l1 ++ r1 = dumpsItems l2 ++ r2 → ndH r1 → ndH r2 →
      canonList l1 = canonList l2 ∧ r1 = r2) ∧
    (∀ f1 : List KV, sizeOf f1 ≤ fuel → ∀ (f2 : List KV) (r1 r2 : List Char),
      dumpsFields f1 ++ r1 = dumpsFields f2 ++ r2 → ndH r1 → ndH r2 →
      canonKV f1 = canonKV f2 ∧ r1 = r2) := by
  intro fuel
  induction fuel with
  | zero =>
    refine ⟨fun v1 hs => ?_, fun l1 hs => ?_, fun f1 hs => ?_⟩
    · cases v1 <;> simp_all
    · cases l1 <;> simp_all
    · cases f1 <;> simp_all
  | succ n ih =>
    obtain ⟨ihA, ihB, ihC⟩ := ih
    refine ⟨fun v1 hs v2 r1 r2 h nd1 nd2 => ?_,
      fun l1 hs l2 r1 r2 h nd1 nd2 => ?_,
      fun f1 hs f2 r1 r2 h nd1 nd2 => ?_⟩
    · -- values
      have hk : kindIdx v1 = kindIdx v2 := by
        obtain ⟨c1, cs1, he1, hc1⟩ := dumps_head_cls v1 r1
        obtain ⟨c2, cs2, he2, hc2⟩ := dumps_head_cls v2 r2
        rw [he1, he2] at h
        injection h with hh _
        rw [← hc1, ← hc2, hh]
      cases v1 <;> cases v2 <;> simp [kindIdx] at hk
      case null.null =>
        simp [dumps] at h
        exact ⟨rfl, h⟩
      case bool.bool b1 b2 =>
        cases b1 <;> cases b2 <;> simp [dumps] at h <;>
          simp [canon] <;> exact h
      case num.num m1 m2 =>
        have h2 : intChars m1 ++ r1 = intChars m2 ++ r2 := by
          simpa [dumps] using h
        obtain ⟨hm, hr⟩ := intChars_cancel h2 nd1 nd2
        subst hm
        exact ⟨rfl, hr⟩
      case str.str s1 s2 =>
        simp only [dumps, escStr, List.cons_append, List.append_assoc,
          List.singleton_append, List.cons.injEq, true_and] at h
        obtain ⟨hsx, hr⟩ := escBody_cancel s1 s2 r1 r2 h
        subst hsx
        exact ⟨rfl, hr⟩
      case arr.arr es1 es2 =>
        simp only [dumps, List.cons_append, List.cons.injEq, true_and] at h
        have hsz : sizeOf es1 ≤ n := by
          simp at hs
          omega
        obtain ⟨hl, hr⟩ := ihB es1 hsz es2 r1 r2 h nd1 nd2
        exact ⟨by simp [canon, hl], hr⟩
      case obj.obj fs1 fs2 =>
        simp only [dumps, List.cons_append, List.cons.injEq, true_and] at h
        have hsz : sizeOf (sortKV fs1) ≤ n := by
          rw [sizeOf_sortKV]
          simp at hs
          omega
        obtain ⟨hf, hr⟩ := ihC (sortKV fs1) hsz (sortKV fs2) r1 r2 h nd1 nd2
        refine ⟨?_, hr⟩
        simp only [canon]
        rw [canonKV_sortKV_comm, canonKV_sortKV_comm, hf]
    · -- array items
      cases l1 with
      | nil =>
        cases l2 with
        | nil =>
          simp [dumpsItems] at h
          exact ⟨rfl, h⟩
        | cons x2 xs2 =>
          exfalso
          cases xs2 with
          | nil =>
            simp only [dumpsItems, List.append_assoc, List.singleton_append,
              List.cons_append] at h
            exact dumps_append_ne_close x2 (']' :: r2) r1 (by decide) h.symm
          | cons y2 ys2 =>
            simp only [dumpsItems, List.append_assoc, List.cons_append] at h
            exact dumps_append_ne_close x2 _ r1 (by decide) h.symm
      | cons x1 xs1 =>
        cases l2 with
        | nil =>
          exfalso
          cases xs1 with
          | nil =>
            simp only [dumpsItems, List.append_assoc, List.singleton_append,
              List.cons_append] at h
            exact dumps_append_ne_close x1 (']' :: r1) r2 (by decide) h
          | cons y1 ys1 =>
            simp only [dumpsItems, List.append_assoc, List.cons_append] at h
            exact dumps_append_ne_close x1 _ r2 (by decide) h
        | cons x2 xs2 =>
          have hsx : sizeOf x1 ≤ n := by
            simp at hs
            omega
          cases xs1 with
          | nil =>
            cases xs2 with
            | nil =>
              simp only [dumpsItems, List.append_assoc, List.singleton_append,
                List.cons_append] at h
              obtain ⟨hv, ht⟩ := ihA x1 hsx x2 _ _ h
                (ndH_cons_of (by decide) _) (ndH_cons_of (by decide) _)
              injection ht with _ hr
              exact ⟨by simp [canonList, hv], hr⟩
            | cons y2 ys2 =>
              simp only [dumpsItems, List.append_assoc, List.singleton_append,
                List.cons_append] at h
              obtain ⟨hv, ht⟩ := ihA x1 hsx x2 _ _ h
                (ndH_cons_of (by decide) _) (ndH_cons_of (by decide) _)
              exact absurd ht (by simp)
          | cons y1 ys1 =>
            cases xs2 with
            | nil =>
              simp only [dumpsItems, List.append_assoc, List.singleton_append,
                List.cons_append] at h
              obtain ⟨hv, ht⟩ := ihA x1 hsx x2 _ _ h
                (ndH_cons_of (by decide) _) (ndH_cons_of (by decide) _)
              exact absurd ht (by simp)
            | cons y2 ys2 =>
              simp only [dumpsItems, List.append_assoc, List.cons_append] at h
              obtain ⟨hv, ht⟩ := ihA x1 hsx x2 _ _ h
                (ndH_cons_of (by decide) _) (ndH_cons_of (by decide) _)
              injection ht with _ ht
              injection ht with _ ht
              have hsxs : sizeOf (y1 :: ys1) ≤ n := by
                simp at hs ⊢
                omega
              obtain ⟨hl, hr⟩ := ihB (y1 :: ys1) hsxs (y2 :: ys2) r1 r2 ht nd1 nd2
              exact ⟨by simp [canonList, hv]; simpa [canonList] using hl, hr⟩
    · -- object fields
      cases f1 with
      | nil =>
        cases f2 with
        | nil =>
          simp [dumpsFields] at h
          exact ⟨rfl, h⟩
        | cons p2 ps2 =>
          exfalso
          obtain ⟨k2, v2⟩ := p2
          cases ps2 with
          | nil =>
            simp only [dumpsFields, escStr_append, List.append_assoc,
              List.singleton_append, List.cons_append] at h
            simp at h
          | cons q2 qs2 =>
            simp only [dumpsFields, escStr_append, List.append_assoc,
              List.cons_append] at h
            simp at h
      | cons p1 ps1 =>
        obtain ⟨k1, v1⟩ := p1
        cases f2 with
        | nil =>
          exfalso
          cases ps1 with
          | nil =>
            simp only [dumpsFields, escStr_append, List.append_assoc,
              List.singleton_append, List.cons_append] at h
            simp at h
          | cons q1 qs1 =>
            simp only [dumpsFields, escStr_append, List.append_assoc,
              List.cons_append] at h
            simp at h
        | cons p2 ps2 =>
          obtain ⟨k2, v2⟩ := p2
          have hsv : sizeOf v1 ≤ n := by
            simp at hs
            omega
          cases ps1 with
          | nil =>
            cases ps2 with
            | nil =>
              simp only [dumpsFields, escStr_append, List.append_assoc,
                List.singleton_append, List.cons_append, List.cons.injEq,
                true_and] at h
              obtain ⟨hk, ht⟩ := escBody_cancel k1 k2 _ _ h
              injection ht with _ ht
              injection ht with _ ht
              obtain ⟨hv, ht⟩ := ihA v1 hsv v2 _ _ ht
                (ndH_cons_of (by decide) _) (ndH_cons_of (by decide) _)
              injection ht with _ hr
              exact ⟨by simp [canonKV, hk, hv], hr⟩
            | cons q2 qs2 =>
              simp only [dumpsFields, escStr_append, List.append_assoc,
                List.singleton_append, List.cons_append, List.cons.injEq,
                true_and] at h
              obtain ⟨hk, ht⟩ := escBody_cancel k1 k2 _ _ h
              injection ht with _ ht
              injection ht with _ ht
              obtain ⟨hv, ht⟩ := ihA v1 hsv v2 _ _ ht
                (ndH_cons_of (by decide) _) (ndH_cons_of (by decide) _)
              exact absurd ht (by simp)
          | cons q1 qs1 =>
            cases ps2 with
            | nil =>
              simp only [dumpsFields, escStr_append, List.append_assoc,
                List.singleton_append, List.cons_append, List.cons.injEq,
                true_and] at h
              obtain ⟨hk, ht⟩ := escBody_cancel k1 k2 _ _ h
              injection ht with _ ht
              injection ht with _ ht
              obtain ⟨hv, ht⟩ := ihA v1 hsv v2 _ _ ht
                (ndH_cons_of (by decide) _) (ndH_cons_of (by decide) _)
              exact absurd ht (by simp)
            | cons q2 qs2 =>
              simp only [dumpsFields, escStr_append, List.append_assoc,
                List.cons_append, List.cons.injEq, true_and] at h
              obtain ⟨hk, ht⟩ := escBody_cancel k1 k2 _ _ h
              injection ht with _ ht
              injection ht with _ ht
              obtain ⟨hv, ht⟩ := ihA v1 hsv v2 _ _ ht
                (ndH_cons_of (by decide) _) (ndH_cons_of (by decide) _)
              injection ht with _ ht
              injection ht with _ ht
              have hsps : sizeOf (q1 :: qs1) ≤ n := by
                simp at hs ⊢
                omega
              obtain ⟨hf, hr⟩ := ihC (q1 :: qs1) hsps (q2 :: qs2) r1 r2 ht nd1 nd2
              refine ⟨?_, hr⟩
              simp only [canonKV, hk, hv]
              simpa [canonKV] using hf

/-- Serializing the canonical form gives the same output: `dumps` already
sorts every object level. -/
theorem dumps_canon_aux : ∀ fuel : Nat,
    (∀ v : J, sizeOf v ≤ fuel → dumps (canon v) = dumps v) ∧
    (∀ l : List J, sizeOf l ≤ fuel → dumpsItems (canonList l) = dumpsItems l) ∧
    (∀ f : List KV, sizeOf f ≤ fuel → dumpsFields (canonKV f) = dumpsFields f) := by
  intro fuel
  induction fuel with
  | zero =>
    refine ⟨fun v hv => ?_, fun l hl => ?_, fun f hf => ?_⟩
    · cases v <;> simp_all
    · cases l <;> simp_all
    · cases f <;> simp_all
  | succ n ih =>
    obtain ⟨ihA, ihB, ihC⟩ := ih
    refine ⟨fun v hv => ?_, fun l hl => ?_, fun f hf => ?_⟩
    · cases v with
      | null => simp [canon]
      | bool b => simp [canon]
      | num m => simp [canon]
      | str s => simp [canon]
      | arr es =>
        simp only [canon, dumps]
        rw [ihB es (by simp at hv; omega)]
      | obj fs =>
        simp only [canon, dumps]
        rw [sortKV_of_sorted (sortKV_sorted (canonKV fs)), canonKV_sortKV_comm]
        rw [ihC (sortKV fs) (by rw [sizeOf_sortKV]; simp at hv; omega)]
    · cases l with
      | nil => simp [canonList]
      | cons x xs =>
        have hx : sizeOf x ≤ n := by simp at hl; omega
        cases xs with
        | nil =>
          simp only [canonList, dumpsItems]
          rw [ihA x hx]
        | cons y ys =>
          have hys : sizeOf (y :: ys) ≤ n := by simp at hl ⊢; omega
          simp only [canonList, dumpsItems]
          rw [ihA x hx]
          have := ihB (y :: ys) hys
          simp only [canonList] at this
          rw [this]
    · cases f with
      | nil => simp [canonKV]
      | cons p ps =>
        obtain ⟨k, v⟩ := p
        have hx : sizeOf v ≤ n := by simp at hf; omega
        cases ps with
        | nil =>
          simp only [canonKV, dumpsFields]
          rw [ihA v hx]
        | cons q qs =>
          obtain ⟨k2, v2⟩ := q
          have hqs : sizeOf ((k2, v2) :: qs) ≤ n := by simp at hf ⊢; omega
          simp only [canonKV, dumpsFields]
          rw [ihA v hx]
          have := ihC ((k2, v2) :: qs) hqs
          simp only [canonKV] at this
          rw [this]

theorem dumps_canon (v : J) : dumps (canon v) = dumps v :=
  (dumps_canon_aux (sizeOf v)).1 v (Nat.le_refl _)

/-- Equal serializations mean equal canonical forms. -/
theorem dumps_inj_canon {v1 v2 : J} (h : dumps v1 = dumps v2) :
    canon v1 = canon v2 := by
  have h2 : dumps v1 ++ [] = dumps v2 ++ [] := by simp [h]
  exact ((det_aux (sizeOf v1)).1 v1 (Nat.le_refl _) v2 [] [] h2 trivial trivial).1

/-- C5: the task-definition digest hashes the canonical, key-sorted
serialization: permuting the insertion order of fields (with the distinct
keys of a Python dict) never changes the digest, structurally identical
definitions (equal canonical forms) always hash identically, and — provided
the digest function is collision-free on these inputs — any change to the
definition (different canonical forms) changes the digest. -/
theorem c5_canonical_hash (hashT : List Char → String) :
    (∀ l1 l2 : List KV, l1.Perm l2 → (l1.map Prod.fst).Nodup →
      hashT (dumps (J.obj l1)) = hashT (dumps (J.obj l2))) ∧
    (∀ v1 v2 : J, canon v1 = canon v2 → hashT (dumps v1) = hashT (dumps v2)) ∧
    (Function.Injective hashT →
      ∀ v1 v2 : J, canon v1 ≠ canon v2 → hashT (dumps v1) ≠ hashT (dumps v2)) := by
  have heq : ∀ v1 v2 : J, canon v1 = canon v2 → hashT (dumps v1) = hashT (dumps v2) := by
    intro v1 v2 hc
    have : dumps v1 = dumps v2 := by
      rw [← dumps_canon v1, ← dumps_canon v2, hc]
    rw [this]
  refine ⟨?_, heq, ?_⟩
  · intro l1 l2 hp hnd
    apply heq
    simp only [canon]
    have hperm : (canonKV l1).Perm (canonKV l2) := by
      rw [canonKV_eq_mapVal, canonKV_eq_mapVal]
      exact hp.map _
    have hnd2 : ((canonKV l1).map Prod.fst).Nodup := by
      rw [canonKV_eq_mapVal, mapVal_keys]
      exact hnd
    rw [sortKV_eq_of_perm hperm hnd2]
  · intro hinj v1 v2 hc hha
    exact hc (dumps_inj_canon (hinj hha))

/-- C5 witness: with the identity digest (injective), swapping the two
fields of a concrete object leaves the digest unchanged, while changing a
field's value changes it. -/
theorem c5_canonical_hash_witness :
    String.mk (dumps (J.obj [(['a'], J.num 1), (['b'], J.num 2)])) =
      String.mk (dumps (J.obj [(['b'], J.num 2), (['a'], J.num 1)])) ∧
    String.mk (dumps (J.num 1)) ≠ String.mk (dumps (J.num 2)) :=
  ⟨(c5_canonical_hash (fun l => String.mk l)).1 _ _ (List.Perm.swap _ _ _)
      (by decide),
    (c5_canonical_hash (fun l => String.mk l)).2.2
      (fun a b hab => by injection hab) (J.num 1) (J.num 2) (by simp [canon])⟩

end Leadersboard
